import Mathlib

/-!
# Verification of the sha1-rs library (`src/lib.rs`)

Shallow embedding of the SHA-1 implementation: bytes are `Nat`s below 256,
`u32` values are `Nat`s reduced modulo `2^32`, the in-memory hasher
`SHA1::hash_sha1` returns `Option` (internal assertion failures and the
unreachable `panic!` arm become `none`), and the streaming hasher
`SHA1::hash_sha1_file` runs over a model of a random-access byte source in
an `Except` monad whose errors distinguish I/O failures from panics.
-/

set_option maxRecDepth 10000

namespace SHA1V

/-- Digest state: the five 32-bit registers `h0..h4` of `struct SHA1`. -/
structure SHA1 where
  h0 : Nat
  h1 : Nat
  h2 : Nat
  h3 : Nat
  h4 : Nat
deriving DecidableEq, Repr

/-- `SHA1::new`: the standard initialization vector. -/
def SHA1.new : SHA1 :=
  { h0 := 0x67452301, h1 := 0xefcdab89, h2 := 0x98badcfe,
    h3 := 0x10325476, h4 := 0xc3d2e1f0 }

/-- The round constant table `SHA1::K`. -/
def K : List Nat := [0x5a827999, 0x6ed9eba1, 0x8f1bbcdc, 0xca62c1d6]

/-- `u32::rotate_left(x, n)` for `x < 2^32`, `0 < n < 32`. -/
def rotl (n x : Nat) : Nat :=
  ((x <<< n) % 2 ^ 32) ||| (x >>> (32 - n))

/-- `(x as u64).to_be_bytes()`: eight big-endian bytes (reduction mod `2^64`
is implicit in taking each byte mod 256). -/
def u64be (n : Nat) : List Nat :=
  [n >>> 56 % 256, n >>> 48 % 256, n >>> 40 % 256, n >>> 32 % 256,
   n >>> 24 % 256, n >>> 16 % 256, n >>> 8 % 256, n % 256]

/-- `u32::from_be_bytes([b0,b1,b2,b3])`. -/
def word_be (b0 b1 b2 b3 : Nat) : Nat :=
  ((b0 * 256 + b1) * 256 + b2) * 256 + b3

/-- The loop `for i in 0..16` of `hash_block`: slice `block[4i..4i+4]` into a
big-endian word; a slice reaching past the end of `block` is a panic (`none`),
exactly as Rust range indexing panics. -/
def words16 (block : List Nat) : Option (List Nat) :=
  (List.range 16).mapM (fun i =>
    if (i + 1) * 4 ≤ block.length then
      some (word_be (block.getD (4 * i) 0) (block.getD (4 * i + 1) 0)
        (block.getD (4 * i + 2) 0) (block.getD (4 * i + 3) 0))
    else none)

/-- The loop `for i in 16..80` of `hash_block`, run `n` times: at each step the
current length of `ws` plays the role of `i`, and the pushed word is
`(ws[i-3] ^ ws[i-8] ^ ws[i-14] ^ ws[i-16]).rotate_left(1)` (all four indices
are in bounds whenever `ws.length ≥ 16`). -/
def extendWords : Nat → List Nat → List Nat
  | 0, ws => ws
  | n + 1, ws =>
    extendWords n (ws ++ [rotl 1 ((ws.getD (ws.length - 3) 0) ^^^
      (ws.getD (ws.length - 8) 0) ^^^ (ws.getD (ws.length - 14) 0) ^^^
      (ws.getD (ws.length - 16) 0))])

/-- Round function of quadrant 0 as the code writes it: `(b & c) ^ (!b & d)`. -/
def chF (b c d : Nat) : Nat := (b &&& c) ^^^ (((2 ^ 32 - 1) ^^^ b) &&& d)

/-- Round function of quadrants 1 and 3: `b ^ c ^ d`. -/
def parityF (b c d : Nat) : Nat := b ^^^ c ^^^ d

/-- Round function of quadrant 2 as the code writes it:
`(b & c) ^ (b & d) ^ (c & d)`. -/
def majF (b c d : Nat) : Nat := (b &&& c) ^^^ (b &&& d) ^^^ (c &&& d)

/-- The `match t / 20` of `hash_block`, selecting `(f, k)`; the catch-all arm
is a `panic!`, modelled as `none`. -/
def fk (q b c d : Nat) : Option (Nat × Nat) :=
  match q with
  | 0 => some (chF b c d, K.getD 0 0)
  | 1 => some (parityF b c d, K.getD 1 0)
  | 2 => some (majF b c d, K.getD 2 0)
  | 3 => some (parityF b c d, K.getD 3 0)
  | _ => none

/-- One iteration of the `for t in 0..80` round loop of `hash_block` on the
working variables `(a, b, c, d, e)`. -/
def roundStep (ws : List Nat) (r : Nat × Nat × Nat × Nat × Nat) (t : Nat) :
    Option (Nat × Nat × Nat × Nat × Nat) :=
  let (a, b, c, d, e) := r
  let w := ws.getD t 0
  match fk (t / 20) b c d with
  | some (f, k) =>
    let temp := ((((rotl 5 a + f) % 2 ^ 32 + e) % 2 ^ 32 + k) % 2 ^ 32 + w) % 2 ^ 32
    some (temp, a, rotl 30 b, c, d)
  | none => none

/-- `SHA1::hash_block`: the two `assert!`s on the schedule length and the
panic arm of the round `match` are `none`. -/
def SHA1.hash_block (h : SHA1) (block : List Nat) : Option SHA1 := do
  let ws16 ← words16 block
  if ws16.length = 16 then
    let ws := extendWords 64 ws16
    if ws.length = 80 then
      let r ← (List.range 80).foldlM (roundStep ws) (h.h0, h.h1, h.h2, h.h3, h.h4)
      let (a, b, c, d, e) := r
      some { h0 := (a + h.h0) % 2 ^ 32, h1 := (b + h.h1) % 2 ^ 32,
             h2 := (c + h.h2) % 2 ^ 32, h3 := (d + h.h3) % 2 ^ 32,
             h4 := (e + h.h4) % 2 ^ 32 }
    else none
  else none

/-- The `while message.len() % 64 != 56` zero-padding loop, with an explicit
iteration budget: one pass appends at most 63 zeros, so a budget of 64
never runs out and the function agrees with the unbounded loop on
every input. -/
def padZerosAux : Nat → List Nat → List Nat
  | 0, l => l
  | fuel + 1, l => if l.length % 64 = 56 then l else padZerosAux fuel (l ++ [0])

/-- Zero-padding until the length is 56 mod 64 (lines 44-46 / 97-99). -/
def padZeros (l : List Nat) : List Nat := padZerosAux 64 l

/-- Blocks `message[b*64..(b+1)*64]` for `b in 0..message.len()/64`
(lines 60-65 and 125-130 slice this way). -/
def chunks64 (l : List Nat) : List (List Nat) :=
  (List.range (l.length / 64)).map (fun b => (l.drop (b * 64)).take 64)

/-- The block-processing loop of `hash_sha1`: fold `hash_block` over the
blocks, a panic anywhere aborting the whole computation. -/
def chunksFold (h : SHA1) : List (List Nat) → Option SHA1
  | [] => some h
  | blk :: rest => do chunksFold (← SHA1.hash_block h blk) rest

/-- `SHA1::hash_sha1`: pad the message in memory and hash each 64-byte block;
`none` models a panic (the `assert!` at line 54 or one inside `hash_block`). -/
def hash_sha1 (message : List Nat) : Option SHA1 :=
  let len8 := u64be (message.length * 8)
  let m := padZeros (message ++ [0x80]) ++ len8
  if m.length % 64 = 0 then chunksFold SHA1.new (chunks64 m) else none

/-- Lower-case hex digit of `n % 16` (one digit of `format!("{:08x}", _)`). -/
def hexCharL (n : Nat) : Char :=
  match n % 16 with
  | 0 => '0' | 1 => '1' | 2 => '2' | 3 => '3' | 4 => '4' | 5 => '5'
  | 6 => '6' | 7 => '7' | 8 => '8' | 9 => '9' | 10 => 'a' | 11 => 'b'
  | 12 => 'c' | 13 => 'd' | 14 => 'e' | _ => 'f'

/-- Upper-case hex digit of `n % 16` (one digit of `format!("{:08X}", _)`). -/
def hexCharU (n : Nat) : Char :=
  match n % 16 with
  | 0 => '0' | 1 => '1' | 2 => '2' | 3 => '3' | 4 => '4' | 5 => '5'
  | 6 => '6' | 7 => '7' | 8 => '8' | 9 => '9' | 10 => 'A' | 11 => 'B'
  | 12 => 'C' | 13 => 'D' | 14 => 'E' | _ => 'F'

/-- `format!("{:08x}", x)` for a `u32`: eight hex digits, most significant
first, zero-padded. -/
def hex8L (x : Nat) : List Char :=
  [hexCharL (x >>> 28), hexCharL (x >>> 24), hexCharL (x >>> 20),
   hexCharL (x >>> 16), hexCharL (x >>> 12), hexCharL (x >>> 8),
   hexCharL (x >>> 4), hexCharL x]

/-- `format!("{:08X}", x)` for a `u32`. -/
def hex8U (x : Nat) : List Char :=
  [hexCharU (x >>> 28), hexCharU (x >>> 24), hexCharU (x >>> 20),
   hexCharU (x >>> 16), hexCharU (x >>> 12), hexCharU (x >>> 8),
   hexCharU (x >>> 4), hexCharU x]

/-- `SHA1::to_lhex`: the five registers rendered as 8 lower-case hex digits
each, concatenated in order. -/
def SHA1.to_lhex (h : SHA1) : String :=
  String.mk (hex8L h.h0 ++ hex8L h.h1 ++ hex8L h.h2 ++ hex8L h.h3 ++ hex8L h.h4)

/-- `SHA1::to_uhex`: upper-case variant. -/
def SHA1.to_uhex (h : SHA1) : String :=
  String.mk (hex8U h.h0 ++ hex8U h.h1 ++ hex8U h.h2 ++ hex8U h.h3 ++ hex8U h.h4)

/-! ## Model of the streaming path `SHA1::hash_sha1_file`

A random-access byte source holds the bytes of a file; `metadata().len()`
reports its exact length. Seeks and reads may fail with an `io::Error`; the
model injects at most one failure, at the `failAt`-th primitive operation
(operations are numbered from 0 in the order the code performs them). -/

/-- Faults of the streaming path: a recoverable `io::Error`, or a panic
(a failed `assert!` or the unreachable `panic!` arm). -/
inductive HErr where
  | io : HErr
  | panic : HErr
deriving DecidableEq, Repr

/-- A random-access byte source: its contents, plus the index of the
primitive seek/read/metadata operation that fails (`none`: no failure). -/
structure RFile where
  content : List Nat
  failAt : Option Nat
deriving DecidableEq, Repr

/-- Mutable file-handle state: the cursor position and the number of
primitive operations performed so far. -/
structure FSt where
  pos : Nat
  op : Nat
deriving DecidableEq, Repr

/-- Perform one primitive operation: fail if this is the designated failing
operation, otherwise count it. -/
def opCheck (fs : RFile) (st : FSt) : Except HErr FSt :=
  if fs.failAt = some st.op then .error .io else .ok { st with op := st.op + 1 }

/-- `file.metadata()?.len()`: the exact byte length of the source. -/
def fMetaLen (fs : RFile) (st : FSt) : Except HErr (FSt × Nat) := do
  let st ← opCheck fs st
  .ok (st, fs.content.length)

/-- `file.seek(SeekFrom::Start(p))?`. -/
def fSeek (fs : RFile) (st : FSt) (p : Nat) : Except HErr FSt := do
  let st ← opCheck fs st
  .ok { st with pos := p }

/-- `file.read_to_end(&mut buf)?`: all bytes from the cursor to the end. -/
def fReadToEnd (fs : RFile) (st : FSt) : Except HErr (FSt × List Nat) := do
  let st ← opCheck fs st
  .ok ({ st with pos := fs.content.length }, fs.content.drop st.pos)

/-- `file.read_exact(&mut buf)?` for a 64-byte buffer: errors (an
`UnexpectedEof` `io::Error`) when fewer than 64 bytes remain. -/
def fReadExact64 (fs : RFile) (st : FSt) : Except HErr (FSt × List Nat) := do
  let st ← opCheck fs st
  if st.pos + 64 ≤ fs.content.length then
    .ok ({ st with pos := st.pos + 64 }, (fs.content.drop st.pos).take 64)
  else .error .io

/-- The `last_blocks` buffer built at lines 85-104 from the tail bytes read
out of the file and the bit length of the whole file: append `0x80`, zero-pad
to 56 mod 64, append the 8-byte big-endian bit length. -/
def mkLastBlocks (tail : List Nat) (len8 : List Nat) : List Nat :=
  padZeros (tail ++ [0x80]) ++ len8

/-- The `for _ in 0..whole_blocks` loop (lines 113-122): read 64 bytes and
compress, `n` times. -/
def fileWholeLoop (fs : RFile) : Nat → FSt → SHA1 → Except HErr (FSt × SHA1)
  | 0, st, h => .ok (st, h)
  | n + 1, st, h => do
    let (st, blk) ← fReadExact64 fs st
    match SHA1.hash_block h blk with
    | some h' => fileWholeLoop fs n st h'
    | none => .error .panic

/-- The `for b in 0..(last_blocks.len() / 64)` loop (lines 125-130). -/
def tailLoop : SHA1 → List (List Nat) → Except HErr SHA1
  | h, [] => .ok h
  | h, blk :: rest =>
    match SHA1.hash_block h blk with
    | some h' => tailLoop h' rest
    | none => .error .panic

/-- `SHA1::hash_sha1_file`: metadata, seek to the last partial block, read it,
frame it, rewind, hash the whole blocks straight from the file, then the
framed tail; any failed primitive propagates as `Except.error`, any
`assert!` failure as `.error .panic`. -/
def hash_sha1_file (fs : RFile) : Except HErr SHA1 := do
  let st : FSt := { pos := 0, op := 0 }
  let (st, blen) ← fMetaLen fs st
  let len8 := u64be (blen * 8)
  let h := SHA1.new
  let whole_blocks := blen / 64
  let left_over := blen % 64
  let st ← fSeek fs st (whole_blocks * 64)
  let (st, last0) ← fReadToEnd fs st
  if last0.length = left_over then
    let last_blocks := mkLastBlocks last0 len8
    if last_blocks.length % 64 = 0 then
      let st ← fSeek fs st 0
      let (_, h) ← fileWholeLoop fs whole_blocks st h
      tailLoop h (chunks64 last_blocks)
    else .error .panic
  else .error .panic

/-! ## Padding lemmas -/

/-- Closed form of the zero-padding loop, for any sufficient budget. -/
theorem padZerosAux_eq : ∀ (fuel : Nat) (l : List Nat),
    (120 - l.length % 64) % 64 ≤ fuel →
    padZerosAux fuel l = l ++ List.replicate ((120 - l.length % 64) % 64) 0 := by
  intro fuel
  induction fuel with
  | zero =>
    intro l h
    have h0 : (120 - l.length % 64) % 64 = 0 := Nat.le_zero.mp h
    have h56 : l.length % 64 = 56 := by omega
    simp [padZerosAux, h0]
  | succ n ih =>
    intro l h
    by_cases h56 : l.length % 64 = 56
    · have h0 : (120 - l.length % 64) % 64 = 0 := by omega
      simp [padZerosAux, h56, h0]
    · have hstep : padZerosAux (n + 1) l = padZerosAux n (l ++ [0]) := by
        rw [padZerosAux, if_neg h56]
      have hlen : (l ++ [0]).length = l.length + 1 := by simp
      have hz : (120 - (l ++ [0]).length % 64) % 64 =
          (120 - l.length % 64) % 64 - 1 := by
        rw [hlen]; omega
      have hle : (120 - (l ++ [0]).length % 64) % 64 ≤ n := by
        rw [hz]; omega
      rw [hstep, ih _ hle, hz, List.append_assoc]
      have hpos : (120 - l.length % 64) % 64 ≠ 0 := by omega
      obtain ⟨m, hm⟩ := Nat.exists_eq_succ_of_ne_zero hpos
      rw [hm]
      simp [List.replicate_succ]

/-- Closed form of `padZeros`: the loop needs at most 63 iterations. -/
theorem padZeros_eq (l : List Nat) :
    padZeros l = l ++ List.replicate ((120 - l.length % 64) % 64) 0 :=
  padZerosAux_eq 64 l (by omega)

theorem length_padZeros (l : List Nat) :
    (padZeros l).length = l.length + (120 - l.length % 64) % 64 := by
  rw [padZeros_eq]; simp

theorem length_padZeros_mod (l : List Nat) : (padZeros l).length % 64 = 56 := by
  rw [length_padZeros]; omega

/-- Zero-padding commutes with a whole-block prefix: the loop only looks at
the length mod 64. -/
theorem padZeros_append (a b : List Nat) (ha : a.length % 64 = 0) :
    padZeros (a ++ b) = a ++ padZeros b := by
  have hlen : (a ++ b).length % 64 = b.length % 64 := by
    simp only [List.length_append]; omega
  rw [padZeros_eq, padZeros_eq, hlen, List.append_assoc]

theorem length_u64be (n : Nat) : (u64be n).length = 8 := rfl

/-! ## `hash_block` never faults on a 64-byte block -/

theorem mapM_some_of {α β : Type} (f : α → Option β) (g : α → β) :
    ∀ l : List α, (∀ a ∈ l, f a = some (g a)) → l.mapM f = some (l.map g) := by
  intro l
  induction l with
  | nil => intro _; rfl
  | cons a t ih =>
    intro h
    rw [List.mapM_cons, h a (by simp), ih (fun x hx => h x (by simp [hx]))]
    rfl

theorem mapM_none_of {α β : Type} (f : α → Option β) :
    ∀ l : List α, (∃ a ∈ l, f a = none) → l.mapM f = none := by
  intro l
  induction l with
  | nil => rintro ⟨a, ha, _⟩; simp at ha
  | cons a t ih =>
    rintro ⟨x, hx, hfx⟩
    rw [List.mapM_cons]
    rcases List.mem_cons.mp hx with rfl | hxt
    · rw [hfx]; rfl
    · cases hfa : f a with
      | none => rfl
      | some b => rw [ih ⟨x, hxt, hfx⟩]; rfl

theorem words16_eq (block : List Nat) (h : 64 ≤ block.length) :
    words16 block = some ((List.range 16).map fun i =>
      word_be (block.getD (4 * i) 0) (block.getD (4 * i + 1) 0)
        (block.getD (4 * i + 2) 0) (block.getD (4 * i + 3) 0)) := by
  apply mapM_some_of
  intro i hi
  have hi16 : i < 16 := List.mem_range.mp hi
  rw [if_pos (by omega)]

theorem extendWords_length : ∀ (n : Nat) (ws : List Nat),
    (extendWords n ws).length = ws.length + n := by
  intro n
  induction n with
  | zero => intro ws; rfl
  | succ m ih =>
    intro ws
    rw [extendWords, ih]
    simp
    omega

theorem roundStep_some (ws : List Nat) (r : Nat × Nat × Nat × Nat × Nat)
    (t : Nat) (ht : t / 20 < 4) : ∃ r2, roundStep ws r t = some r2 := by
  obtain ⟨a, b, c, d, e⟩ := r
  have hfk : ∃ p, fk (t / 20) b c d = some p := by
    interval_cases h : t / 20 <;> exact ⟨_, rfl⟩
  obtain ⟨⟨f, k⟩, hp⟩ := hfk
  simp only [roundStep, hp]
  exact ⟨_, rfl⟩

theorem foldlM_roundStep_some (ws : List Nat) :
    ∀ l : List Nat, (∀ t ∈ l, t / 20 < 4) →
    ∀ r : Nat × Nat × Nat × Nat × Nat,
    ∃ r2, l.foldlM (roundStep ws) r = some r2 := by
  intro l
  induction l with
  | nil => intro _ r; exact ⟨r, rfl⟩
  | cons t rest ih =>
    intro h r
    obtain ⟨r1, hr1⟩ := roundStep_some ws r t (h t (by simp))
    obtain ⟨r2, hr2⟩ := ih (fun x hx => h x (by simp [hx])) r1
    refine ⟨r2, ?_⟩
    rw [List.foldlM_cons, hr1]
    exact hr2

/-- A block of at least 64 bytes is compressed without any fault (only the
first 64 bytes are read, matching the Rust slicing). -/
theorem hash_block_some (h : SHA1) (block : List Nat) (h64 : 64 ≤ block.length) :
    ∃ h2, SHA1.hash_block h block = some h2 := by
  have h16 : ((List.range 16).map fun i =>
      word_be (block.getD (4 * i) 0) (block.getD (4 * i + 1) 0)
        (block.getD (4 * i + 2) 0) (block.getD (4 * i + 3) 0)).length = 16 := by
    simp
  obtain ⟨r, hr⟩ := foldlM_roundStep_some
    (extendWords 64 ((List.range 16).map fun i =>
      word_be (block.getD (4 * i) 0) (block.getD (4 * i + 1) 0)
        (block.getD (4 * i + 2) 0) (block.getD (4 * i + 3) 0)))
    (List.range 80) (fun t ht => by have := List.mem_range.mp ht; omega)
    (h.h0, h.h1, h.h2, h.h3, h.h4)
  obtain ⟨a, b, c, d, e⟩ := r
  rw [SHA1.hash_block, words16_eq block h64]
  simp only [Option.bind_eq_bind, Option.some_bind, h16, if_pos,
    extendWords_length, hr]
  exact ⟨_, rfl⟩

/-- A block of fewer than 64 bytes always faults: the byte-slicing loop
panics before any state update. -/
theorem hash_block_none (h : SHA1) (block : List Nat)
    (hlt : block.length < 64) : SHA1.hash_block h block = none := by
  have : words16 block = none := by
    apply mapM_none_of
    refine ⟨15, by simp, ?_⟩
    rw [if_neg (by omega)]
  rw [SHA1.hash_block, this]
  rfl

/-! ## Block-sequence lemmas -/

theorem chunks64_mem_length (l c : List Nat) (hc : c ∈ chunks64 l) :
    c.length = 64 := by
  obtain ⟨i, hi, rfl⟩ := List.mem_map.mp hc
  have hi2 : i < l.length / 64 := List.mem_range.mp hi
  simp only [List.length_take, List.length_drop]
  omega

theorem chunksFold_some : ∀ bls : List (List Nat),
    (∀ c ∈ bls, c.length = 64) → ∀ h : SHA1,
    ∃ h2, chunksFold h bls = some h2 := by
  intro bls
  induction bls with
  | nil => intro _ h; exact ⟨h, rfl⟩
  | cons c rest ih =>
    intro hlen h
    obtain ⟨h1, hh1⟩ := hash_block_some h c (by rw [hlen c (by simp)])
    obtain ⟨h2, hh2⟩ := ih (fun x hx => hlen x (by simp [hx])) h1
    refine ⟨h2, ?_⟩
    rw [chunksFold, hh1]
    exact hh2

theorem chunksFold_append : ∀ (l1 l2 : List (List Nat)) (h : SHA1),
    chunksFold h (l1 ++ l2) = (chunksFold h l1).bind fun h2 => chunksFold h2 l2 := by
  intro l1
  induction l1 with
  | nil => intro l2 h; rfl
  | cons c rest ih =>
    intro l2 h
    rw [List.cons_append, chunksFold, chunksFold]
    cases hb : SHA1.hash_block h c with
    | none => rfl
    | some h1 => simp only [Option.bind_eq_bind, Option.some_bind]; exact ih l2 h1

/-- Slicing into 64-byte blocks splits over a whole-block prefix. -/
theorem chunks64_append (a b : List Nat) (ha : a.length % 64 = 0) :
    chunks64 (a ++ b) = chunks64 a ++ chunks64 b := by
  have hdiv : (a ++ b).length / 64 = a.length / 64 + b.length / 64 := by
    simp only [List.length_append]; omega
  rw [chunks64, chunks64, chunks64, hdiv, List.range_add, List.map_append,
    List.map_map]
  congr 1
  · apply List.map_congr_left
    intro i hi
    have hi2 : i < a.length / 64 := List.mem_range.mp hi
    have hb1 : i * 64 ≤ a.length := by omega
    have hb2 : 64 ≤ (a.drop (i * 64)).length := by
      simp only [List.length_drop]; omega
    rw [List.drop_append_of_le_length hb1, List.take_append_of_le_length hb2]
  · apply List.map_congr_left
    intro i hi
    have hmul : (a.length / 64 + i) * 64 = a.length + i * 64 := by omega
    simp only [Function.comp]
    rw [hmul, ← List.drop_drop, List.drop_left]

/-- The whole-block prefix of a message, sliced: block `i` is
`take 64 (drop (i*64) msg)`. -/
theorem chunks64_take (l : List Nat) (n : Nat) (h : 64 * n ≤ l.length) :
    chunks64 (l.take (64 * n)) =
      (List.range n).map fun i => (l.drop (i * 64)).take 64 := by
  have hlen : (l.take (64 * n)).length = 64 * n := by
    simp only [List.length_take]; omega
  rw [chunks64, hlen]
  have hdiv : 64 * n / 64 = n := by omega
  rw [hdiv]
  apply List.map_congr_left
  intro i hi
  have hi2 : i < n := List.mem_range.mp hi
  rw [List.drop_take]
  rw [List.take_take]
  congr 1
  omega

/-! ## Streaming-path lemmas -/

@[simp]
theorem ok_bind {ε α β : Type} (a : α) (f : α → Except ε β) :
    (Except.ok a : Except ε α) >>= f = f a := rfl

@[simp]
theorem error_bind {ε α β : Type} (e : ε) (f : α → Except ε β) :
    (Except.error e : Except ε α) >>= f = Except.error e := rfl

theorem opCheck_none (fs : RFile) (st : FSt) (hf : fs.failAt = none) :
    opCheck fs st = .ok { st with op := st.op + 1 } := by
  rw [opCheck, hf]
  rfl

/-- The tail-block loop is the in-memory block fold, with panics turned into
`.error .panic`. -/
theorem tailLoop_eq : ∀ (bls : List (List Nat)) (h : SHA1),
    tailLoop h bls = match chunksFold h bls with
      | some h2 => .ok h2
      | none => .error .panic := by
  intro bls
  induction bls with
  | nil => intro h; rfl
  | cons c rest ih =>
    intro h
    rw [tailLoop, chunksFold]
    cases hb : SHA1.hash_block h c with
    | none => rfl
    | some h1 => simp only [Option.bind_eq_bind, Option.some_bind]; exact ih h1

/-- On a failure-free source, the whole-block read loop computes the block
fold of the corresponding 64-byte slices of the contents, advancing the
cursor by `64 * n` and performing `n` operations. -/
theorem fileWholeLoop_eq (fs : RFile) (hf : fs.failAt = none) :
    ∀ (n pos op : Nat) (h : SHA1), pos + 64 * n ≤ fs.content.length →
    fileWholeLoop fs n ⟨pos, op⟩ h =
      match chunksFold h ((List.range n).map fun i =>
          (fs.content.drop (pos + i * 64)).take 64) with
      | some h2 => .ok (⟨pos + 64 * n, op + n⟩, h2)
      | none => .error .panic := by
  intro n
  induction n with
  | zero =>
    intro pos op h _
    simp [fileWholeLoop, chunksFold]
  | succ m ih =>
    intro pos op h hle
    have hread : fReadExact64 fs ⟨pos, op⟩ =
        .ok (⟨pos + 64, op + 1⟩, (fs.content.drop pos).take 64) := by
      rw [fReadExact64, opCheck_none fs _ hf]
      simp only [ok_bind]
      rw [if_pos (by omega)]
    rw [fileWholeLoop, hread]
    simp only [ok_bind]
    have hrange : (List.range (m + 1)).map
        (fun i => (fs.content.drop (pos + i * 64)).take 64) =
        ((fs.content.drop (pos + 0 * 64)).take 64) ::
          (List.range m).map fun i => (fs.content.drop ((pos + 64) + i * 64)).take 64 := by
      rw [List.range_succ_eq_map, List.map_cons, List.map_map]
      congr 1
      apply List.map_congr_left
      intro i _
      have : pos + Nat.succ i * 64 = pos + 64 + i * 64 := by omega
      simp only [Function.comp, Nat.succ_eq_add_one]
      rw [show pos + (i + 1) * 64 = pos + 64 + i * 64 from by omega]
    rw [hrange, chunksFold]
    have h0 : pos + 0 * 64 = pos := by omega
    rw [h0]
    cases hb : SHA1.hash_block h ((fs.content.drop pos).take 64) with
    | none => rfl
    | some h1 =>
      simp only [Option.bind_eq_bind, Option.some_bind]
      rw [ih (pos + 64) (op + 1) h1 (by omega)]
      have e1 : pos + 64 + 64 * m = pos + 64 * (m + 1) := by omega
      have e2 : op + 1 + m = op + (m + 1) := by omega
      rw [e1, e2]

theorem mkLastBlocks_length_mod (t : List Nat) (n : Nat) :
    (mkLastBlocks t (u64be n)).length % 64 = 0 := by
  rw [mkLastBlocks]
  simp only [List.length_append, length_u64be]
  have := length_padZeros_mod (t ++ [0x80])
  omega

/-- The in-memory hash is the block fold of the whole-block prefix followed
by the framed tail: padding only touches the final partial block. -/
theorem hash_sha1_split (bytes : List Nat) :
    hash_sha1 bytes = chunksFold SHA1.new
      (chunks64 (bytes.take (64 * (bytes.length / 64))) ++
       chunks64 (mkLastBlocks (bytes.drop (64 * (bytes.length / 64)))
         (u64be (bytes.length * 8)))) := by
  have hwle : 64 * (bytes.length / 64) ≤ bytes.length := by omega
  have ha : (bytes.take (64 * (bytes.length / 64))).length % 64 = 0 := by
    simp only [List.length_take]
    omega
  have hm : padZeros (bytes ++ [0x80]) ++ u64be (bytes.length * 8) =
      bytes.take (64 * (bytes.length / 64)) ++
        mkLastBlocks (bytes.drop (64 * (bytes.length / 64)))
          (u64be (bytes.length * 8)) := by
    rw [mkLastBlocks]
    conv_lhs => rw [← List.take_append_drop (64 * (bytes.length / 64)) bytes]
    rw [List.append_assoc, padZeros_append _ _ ha, List.append_assoc,
      List.take_append_drop]
  have hmod : (padZeros (bytes ++ [0x80]) ++ u64be (bytes.length * 8)).length % 64 = 0 := by
    simp only [List.length_append, length_u64be]
    have := length_padZeros_mod (bytes ++ [0x80])
    omega
  rw [hash_sha1]
  rw [if_pos hmod, hm, chunks64_append _ _ ha]

/-- A failure-free run of the streaming hasher computes the same block fold
as `hash_sha1_split` exposes for the in-memory hasher. -/
theorem hash_sha1_file_none (bytes : List Nat) :
    hash_sha1_file ⟨bytes, none⟩ =
      match chunksFold SHA1.new
        (chunks64 (bytes.take (64 * (bytes.length / 64))) ++
         chunks64 (mkLastBlocks (bytes.drop (64 * (bytes.length / 64)))
           (u64be (bytes.length * 8)))) with
      | some h2 => .ok h2
      | none => .error .panic := by
  have hf : (RFile.mk bytes none).failAt = none := rfl
  have hcontent : (RFile.mk bytes none).content = bytes := rfl
  rw [hash_sha1_file]
  rw [fMetaLen, opCheck_none _ _ hf]
  simp only [ok_bind, hcontent]
  rw [fSeek, opCheck_none _ _ hf]
  simp only [ok_bind]
  rw [fReadToEnd, opCheck_none _ _ hf]
  simp only [ok_bind]
  have hdroplen : (bytes.drop (bytes.length / 64 * 64)).length = bytes.length % 64 := by
    simp only [List.length_drop]
    omega
  rw [if_pos hdroplen]
  have hmul : bytes.length / 64 * 64 = 64 * (bytes.length / 64) := by omega
  rw [if_pos (mkLastBlocks_length_mod _ _)]
  rw [fSeek, opCheck_none _ _ hf]
  simp only [ok_bind]
  rw [fileWholeLoop_eq _ hf _ 0 _ _ (by simp only [hcontent]; omega)]
  have hchunks : (List.range (bytes.length / 64)).map
      (fun i => ((RFile.mk bytes none).content.drop (0 + i * 64)).take 64) =
      chunks64 (bytes.take (64 * (bytes.length / 64))) := by
    rw [chunks64_take bytes _ (by omega)]
    apply List.map_congr_left
    intro i _
    rw [Nat.zero_add, hcontent]
  rw [hchunks, hmul]
  cases hfold : chunksFold SHA1.new (chunks64 (bytes.take (64 * (bytes.length / 64)))) with
  | none =>
    rw [chunksFold_append, hfold]
    rfl
  | some h1 =>
    simp only [ok_bind]
    rw [tailLoop_eq, chunksFold_append, hfold]
    rfl

theorem opCheck_ne (fs : RFile) (st : FSt) (hne : fs.failAt ≠ some st.op) :
    opCheck fs st = .ok { st with op := st.op + 1 } := by
  rw [opCheck, if_neg hne]

theorem opCheck_eq (fs : RFile) (st : FSt) (heq : fs.failAt = some st.op) :
    opCheck fs st = .error .io := by
  rw [opCheck, if_pos heq]

/-- If the designated failing operation falls inside the whole-block read
loop, the loop aborts with the I/O error. -/
theorem fileWholeLoop_fail (fs : RFile) (nf : Nat) (hf : fs.failAt = some nf) :
    ∀ (n : Nat) (st : FSt) (h : SHA1), st.op ≤ nf → nf < st.op + n →
    fileWholeLoop fs n st h = .error .io := by
  intro n
  induction n with
  | zero => intro st h h1 h2; omega
  | succ m ih =>
    intro st h h1 h2
    by_cases heq : st.op = nf
    · rw [fileWholeLoop, fReadExact64, opCheck_eq fs st (by rw [hf, heq])]
      rfl
    · rw [fileWholeLoop, fReadExact64,
        opCheck_ne fs st (by rw [hf]; simp; omega)]
      simp only [ok_bind]
      by_cases hpos : st.pos + 64 ≤ fs.content.length
      · rw [if_pos hpos]
        simp only [ok_bind]
        have hlen : ((fs.content.drop st.pos).take 64).length = 64 := by
          simp only [List.length_take, List.length_drop]
          omega
        obtain ⟨h1x, hh1⟩ := hash_block_some h ((fs.content.drop st.pos).take 64)
          (by rw [hlen])
        rw [hh1]
        exact ih _ h1x (by simp only; omega) (by simp only; omega)
      · rw [if_neg hpos]
        rfl

/-! ## Round-function identities and hex-rendering lemmas -/

/-- The XOR form of the choice function agrees with the OR form on 32-bit
values: the two operands are bitwise disjoint. -/
theorem chF_eq_or (b c d : Nat) (hb : b < 2 ^ 32) :
    chF b c d = (b &&& c) ||| (((2 ^ 32 - 1) ^^^ b) &&& d) := by
  apply Nat.eq_of_testBit_eq
  intro i
  simp only [chF, Nat.testBit_xor, Nat.testBit_and, Nat.testBit_or]
  by_cases hi : i < 32
  · have hm : (2 ^ 32 - 1 : Nat).testBit i = true := by
      rw [Nat.testBit_two_pow_sub_one]
      simp [hi]
    rw [hm]
    cases b.testBit i <;> cases c.testBit i <;> cases d.testBit i <;> rfl
  · have hbb : b.testBit i = false :=
      Nat.testBit_eq_false_of_lt
        (lt_of_lt_of_le hb (Nat.pow_le_pow_right (by norm_num) (by omega)))
    have hmm : (2 ^ 32 - 1 : Nat).testBit i = false := by
      rw [Nat.testBit_two_pow_sub_one]
      simp [hi]
    rw [hbb, hmm]
    cases c.testBit i <;> cases d.testBit i <;> rfl

/-- The XOR form of the majority function agrees with the OR form (on all
naturals: in each bit position, XOR and OR of the three pairwise
conjunctions coincide). -/
theorem majF_eq_or (b c d : Nat) :
    majF b c d = (b &&& c) ||| (b &&& d) ||| (c &&& d) := by
  apply Nat.eq_of_testBit_eq
  intro i
  simp only [majF, Nat.testBit_xor, Nat.testBit_and, Nat.testBit_or]
  cases b.testBit i <;> cases c.testBit i <;> cases d.testBit i <;> rfl

/-- Each upper-case hex digit is the upper-casing of the lower-case one. -/
theorem hexCharU_eq_toUpper (n : Nat) : hexCharU n = (hexCharL n).toUpper := by
  have h : n % 16 < 16 := Nat.mod_lt _ (by norm_num)
  unfold hexCharL hexCharU
  generalize n % 16 = m at h ⊢
  interval_cases m <;> decide

theorem hex8U_eq (x : Nat) : hex8U x = (hex8L x).map Char.toUpper := by
  simp [hex8L, hex8U, hexCharU_eq_toUpper]

/-! ## Claim theorems -/

/-- C1: for every byte sequence, the in-memory path (`hash_sha1` on the
bytes) and the streaming path (`hash_sha1_file` on a failure-free
random-access source holding exactly those bytes, whose metadata reports
their total length) produce identical digests, and hence identical
lower-case hex renderings. -/
theorem C1_inmemory_streaming_equiv (bytes : List Nat) :
    ∃ h : SHA1, hash_sha1 bytes = some h ∧
      hash_sha1_file ⟨bytes, none⟩ = Except.ok h ∧
      (hash_sha1 bytes).map SHA1.to_lhex = some h.to_lhex := by
  obtain ⟨h2, hh2⟩ := chunksFold_some
    (chunks64 (bytes.take (64 * (bytes.length / 64))) ++
     chunks64 (mkLastBlocks (bytes.drop (64 * (bytes.length / 64)))
       (u64be (bytes.length * 8))))
    (fun c hc => by
      rcases List.mem_append.mp hc with h1 | h1 <;>
        exact chunks64_mem_length _ _ h1)
    SHA1.new
  refine ⟨h2, ?_, ?_, ?_⟩
  · rw [hash_sha1_split]
    exact hh2
  · rw [hash_sha1_file_none, hh2]
  · rw [hash_sha1_split, hh2]
    rfl

/-- C2: hashing the empty byte sequence yields the digest whose lower-case
hex rendering is exactly `da39a3ee5e6b4b0d3255bfef95601890afd80709`. -/
theorem C2_empty_vector :
    (hash_sha1 []).map SHA1.to_lhex =
      some "da39a3ee5e6b4b0d3255bfef95601890afd80709" := by
  decide

/-- C3, counterexample: hashing the bytes of `"abc"` does not render to the
39-character string the claim states — the code yields a 40-character
digest. -/
theorem C3_counterexample :
    (hash_sha1 [97, 98, 99]).map SHA1.to_lhex ≠
      some "a9993e364706816aba3e25717850c26c9cd0d89" := by
  decide

/-- C3, amended: hashing the three-byte sequence `"abc"` yields the digest
whose lower-case hex rendering is exactly
`a9993e364706816aba3e25717850c26c9cd0d89d` (the claim's string with its
missing final `d`, i.e. the standard 40-digit SHA-1 vector). -/
theorem C3_abc_vector :
    (hash_sha1 [97, 98, 99]).map SHA1.to_lhex =
      some "a9993e364706816aba3e25717850c26c9cd0d89d" := by
  decide

/-- C4: for every input, the padded message (append `0x80`, zero-fill to
56 mod 64, append the 8-byte big-endian bit length) has length the smallest
multiple of 64 strictly greater than `L + 8` — it is divisible by 64, above
`L + 8`, and within 64 of it — namely `64 * ceil((L+9)/64)`, and the number
of 64-byte blocks compressed is `ceil((L+9)/64)`. -/
theorem C4_padded_length (msg : List Nat) :
    (padZeros (msg ++ [0x80]) ++ u64be (msg.length * 8)).length % 64 = 0 ∧
    msg.length + 8 <
      (padZeros (msg ++ [0x80]) ++ u64be (msg.length * 8)).length ∧
    (padZeros (msg ++ [0x80]) ++ u64be (msg.length * 8)).length ≤
      msg.length + 8 + 64 ∧
    (padZeros (msg ++ [0x80]) ++ u64be (msg.length * 8)).length =
      64 * ((msg.length + 9 + 63) / 64) ∧
    (chunks64 (padZeros (msg ++ [0x80]) ++ u64be (msg.length * 8))).length =
      (msg.length + 9 + 63) / 64 := by
  have h1 : (padZeros (msg ++ [0x80])).length =
      (msg.length + 1) + (120 - (msg.length + 1) % 64) % 64 := by
    rw [length_padZeros]
    simp
  have h2 : (chunks64 (padZeros (msg ++ [0x80]) ++ u64be (msg.length * 8))).length =
      (padZeros (msg ++ [0x80]) ++ u64be (msg.length * 8)).length / 64 := by
    simp [chunks64]
  refine ⟨?_, ?_, ?_, ?_, ?_⟩ <;>
    simp only [h2, List.length_append, length_u64be, h1] <;> omega

/-- C5, counterexample: at input length `L = 55` (≡ 55 mod 64) the framed
tail of the streaming path is a single 64-byte block, not the two blocks
the claim states. -/
theorem C5_counterexample :
    ¬ ((mkLastBlocks ((List.replicate 55 0).drop
          (64 * ((List.replicate 55 0).length / 64)))
        (u64be ((List.replicate 55 0).length * 8))).length / 64 = 2) := by
  decide

/-- C5, amended: if `L ≡ 56..63 (mod 64)` the framed tail is two 64-byte
blocks; for every other residue — including `L ≡ 55`, where the `0x80`
marker and the length field exactly fill the block — it is one block
(so at `L` = 55, 64 and 0 one block, at 56 and 63 two). The same holds for
the number of padding blocks of the in-memory path, total blocks minus
whole input blocks. -/
theorem C5_tail_blocks (msg : List Nat) :
    (mkLastBlocks (msg.drop (64 * (msg.length / 64)))
        (u64be (msg.length * 8))).length / 64 =
      (if msg.length % 64 < 56 then 1 else 2) ∧
    (chunks64 (padZeros (msg ++ [0x80]) ++ u64be (msg.length * 8))).length -
        msg.length / 64 =
      (if msg.length % 64 < 56 then 1 else 2) := by
  have hdrop : (msg.drop (64 * (msg.length / 64))).length = msg.length % 64 := by
    simp only [List.length_drop]
    omega
  have h1 : (mkLastBlocks (msg.drop (64 * (msg.length / 64)))
      (u64be (msg.length * 8))).length =
      (msg.length % 64 + 1) + (120 - (msg.length % 64 + 1) % 64) % 64 + 8 := by
    rw [mkLastBlocks]
    simp only [List.length_append, length_u64be, length_padZeros, hdrop,
      List.length_cons, List.length_nil]
  have h2 := (C4_padded_length msg).2.2.2.2
  rcases Nat.lt_or_ge (msg.length % 64) 56 with h | h
  · rw [if_pos h]
    constructor
    · omega
    · rw [h2]; omega
  · rw [if_neg (by omega)]
    constructor
    · omega
    · rw [h2]; omega

/-- C6: in rounds `t ∈ 0..19` the code computes the choice function in XOR
form with constant `K[0] = 0x5a827999`, and in rounds `t ∈ 40..59` the
majority function in XOR form with `K[2] = 0x8f1bbcdc`; on all 32-bit
values of `b`, `c`, `d` these equal the spec's OR-based formulas
`(b AND c) OR (NOT b AND d)` and `(b AND c) OR (b AND d) OR (c AND d)`. -/
theorem C6_round_functions (t b c d : Nat)
    (hb : b < 2 ^ 32) (_hc : c < 2 ^ 32) (_hd : d < 2 ^ 32) :
    (t < 20 → fk (t / 20) b c d =
      some ((b &&& c) ||| (((2 ^ 32 - 1) ^^^ b) &&& d), 0x5a827999)) ∧
    (40 ≤ t → t < 60 → fk (t / 20) b c d =
      some ((b &&& c) ||| (b &&& d) ||| (c &&& d), 0x8f1bbcdc)) := by
  constructor
  · intro ht
    have hq : t / 20 = 0 := by omega
    rw [hq]
    show some (chF b c d, K.getD 0 0) = _
    rw [chF_eq_or b c d hb]
    rfl
  · intro ht1 ht2
    have hq : t / 20 = 2 := by omega
    rw [hq]
    show some (majF b c d, K.getD 2 0) = _
    rw [majF_eq_or b c d]
    rfl

/-- Witness for C6 at `t = 5` and `t = 45`, `b = 5`, `c = 9`, `d = 12`. -/
theorem C6_round_functions_witness :
    fk (5 / 20) 5 9 12 =
      some ((5 &&& 9) ||| (((2 ^ 32 - 1) ^^^ 5) &&& 12), 0x5a827999) ∧
    fk (45 / 20) 5 9 12 =
      some ((5 &&& 9) ||| (5 &&& 12) ||| (9 &&& 12), 0x8f1bbcdc) :=
  ⟨(C6_round_functions 5 5 9 12 (by norm_num) (by norm_num) (by norm_num)).1
      (by norm_num),
   (C6_round_functions 45 5 9 12 (by norm_num) (by norm_num) (by norm_num)).2
      (by norm_num) (by norm_num)⟩

/-- C7: for every digest state, the lower- and upper-case renderings have
exactly 40 characters each, are the five registers rendered as 8 hex digits
each concatenated in order `h0..h4`, never fail (they are total functions),
and the upper-case rendering is the character-wise upper-casing of the
lower-case one. -/
theorem C7_hex_rendering (s : SHA1) :
    s.to_lhex.length = 40 ∧ s.to_uhex.length = 40 ∧
    s.to_lhex.data =
      hex8L s.h0 ++ hex8L s.h1 ++ hex8L s.h2 ++ hex8L s.h3 ++ hex8L s.h4 ∧
    s.to_uhex.data = s.to_lhex.data.map Char.toUpper := by
  refine ⟨?_, ?_, rfl, ?_⟩
  · show (hex8L s.h0 ++ hex8L s.h1 ++ hex8L s.h2 ++ hex8L s.h3 ++
      hex8L s.h4).length = 40
    simp [hex8L]
  · show (hex8U s.h0 ++ hex8U s.h1 ++ hex8U s.h2 ++ hex8U s.h3 ++
      hex8U s.h4).length = 40
    simp [hex8U]
  · show hex8U s.h0 ++ hex8U s.h1 ++ hex8U s.h2 ++ hex8U s.h3 ++ hex8U s.h4 =
      (hex8L s.h0 ++ hex8L s.h1 ++ hex8L s.h2 ++ hex8L s.h3 ++
        hex8L s.h4).map Char.toUpper
    simp only [List.map_append, hex8U_eq]

/-- C8, counterexample: a 65-byte block is not 64 bytes long, yet the block
compressor silently succeeds on it (it reads only the first 64 bytes), so
the operation does not fault unconditionally on every non-64-byte block. -/
theorem C8_counterexample :
    (List.replicate 65 (0 : Nat)).length ≠ 64 ∧
    (SHA1.hash_block SHA1.new (List.replicate 65 0)).isSome = true := by
  constructor
  · decide
  · decide

/-- C8, amended: the block compressor faults exactly when the block is
shorter than 64 bytes (the byte-slicing loop panics before any state
update); a block of 64 bytes or more is compressed silently, using its
first 64 bytes. -/
theorem C8_short_block_faults (h : SHA1) (block : List Nat) :
    SHA1.hash_block h block = none ↔ block.length < 64 := by
  constructor
  · intro hnone
    by_contra hge
    obtain ⟨h2, hh2⟩ := hash_block_some h block (by omega)
    rw [hh2] at hnone
    cases hnone
  · exact hash_block_none h block

/-- C9: whenever a seek or read of the byte source fails — that is, whenever
the failing operation index falls among the `4 + L/64` primitive operations
the streaming hasher performs (metadata, seek to the tail, read of the
tail, rewind, and one 64-byte read per whole block) — the error propagates
to the caller as a recoverable `Except.error HErr.io`, and no digest,
partial or otherwise, is returned. -/
theorem C9_io_error_propagation (bytes : List Nat) (nf : Nat)
    (hlt : nf < 4 + bytes.length / 64) :
    hash_sha1_file ⟨bytes, some nf⟩ = Except.error HErr.io := by
  have hdroplen : (bytes.drop (bytes.length / 64 * 64)).length =
      bytes.length % 64 := by
    simp only [List.length_drop]
    omega
  rcases nf with _ | (_ | (_ | (_ | k)))
  · rw [hash_sha1_file, fMetaLen, opCheck_eq _ _ rfl]
    rfl
  · rw [hash_sha1_file, fMetaLen, opCheck_ne _ _ (by simp)]
    simp only [ok_bind]
    rw [fSeek, opCheck_eq _ _ rfl]
    rfl
  · rw [hash_sha1_file, fMetaLen, opCheck_ne _ _ (by simp)]
    simp only [ok_bind]
    rw [fSeek, opCheck_ne _ _ (by simp)]
    simp only [ok_bind]
    rw [fReadToEnd, opCheck_eq _ _ rfl]
    rfl
  · rw [hash_sha1_file, fMetaLen, opCheck_ne _ _ (by simp)]
    simp only [ok_bind]
    rw [fSeek, opCheck_ne _ _ (by simp)]
    simp only [ok_bind]
    rw [fReadToEnd, opCheck_ne _ _ (by simp)]
    simp only [ok_bind]
    rw [if_pos hdroplen, if_pos (mkLastBlocks_length_mod _ _)]
    rw [fSeek, opCheck_eq _ _ rfl]
    rfl
  · rw [hash_sha1_file, fMetaLen, opCheck_ne _ _ (by simp)]
    simp only [ok_bind]
    rw [fSeek, opCheck_ne _ _ (by simp)]
    simp only [ok_bind]
    rw [fReadToEnd, opCheck_ne _ _ (by simp)]
    simp only [ok_bind]
    rw [if_pos hdroplen, if_pos (mkLastBlocks_length_mod _ _)]
    rw [fSeek, opCheck_ne _ _ (by simp)]
    simp only [ok_bind]
    rw [fileWholeLoop_fail _ (k + 4) rfl (bytes.length / 64) _ _
      (by simp only; omega) (by simp only; omega)]
    rfl

/-- Witness for C9: on a source holding no bytes whose very first operation
(the metadata query) fails, the streaming hasher returns the I/O error. -/
theorem C9_io_error_propagation_witness :
    hash_sha1_file ⟨[], some 0⟩ = Except.error HErr.io :=
  C9_io_error_propagation [] 0 (by decide)

/-- C10: the in-memory hash computation never faults internally on any
input: the padded length is a multiple of 64 (the post-padding assertion
holds), the message schedule of every block reaches exactly 16 and then
exactly 80 words (both schedule assertions hold), and every round index
`t ∈ 0..79` has quadrant `t / 20 ∈ 0..3`, so the catch-all panic arm is
unreachable — the computation always returns a digest. -/
theorem C10_no_internal_fault (msg : List Nat) :
    ∃ h : SHA1, hash_sha1 msg = some h := by
  rw [hash_sha1_split]
  exact chunksFold_some _
    (fun c hc => by
      rcases List.mem_append.mp hc with h1 | h1 <;>
        exact chunks64_mem_length _ _ h1)
    SHA1.new

end SHA1V
